import Mathlib

/-!
Verification of the msstats command-category classification engine.

This file gives a shallow embedding of the computational core of the
msstats repository (src/msstats.py and src/memorystore.py):

* `pyround` models the Python builtin `round` (round half to even);
* `get_command_by_args`, `get_all_commands`, `processMetricPoint` model the
  point classifier of src/msstats.py;
* `nodeStatsInit`, `statStep`, `processPoint`, `processNodeStats` model the
  window reducer of src/msstats.py (lines 30-57), with `Option` capturing a
  possible Python `KeyError` in the unguarded read `nodeStats[key]`;
* `msstatsNodeRole`, `memorystoreNodeRole`, `applyProcessedCategories` model
  the role normalization and the category post-processing of the two
  collectors (src/msstats.py line 636, src/memorystore.py).

Python dicts are modelled as association lists (`List (String × _)`): the
first binding of a key wins on lookup, and iteration follows list order.
Raw command rates are modelled as rationals (the monitoring backend delivers
int64 or double samples); classified values are integers (results of
Python `round`).
-/

namespace MSStats

/-- Python `round`: round half to even (banker's rounding), on rationals. -/
def pyround (q : ℚ) : ℤ :=
  if q - ⌊q⌋ < 1/2 then ⌊q⌋
  else if 1/2 < q - ⌊q⌋ then ⌊q⌋ + 1
  else if ⌊q⌋ % 2 = 0 then ⌊q⌋ else ⌊q⌋ + 1

/-- Python dict lookup on an association list: the first binding wins;
`none` models a `KeyError`. -/
def dictLookup {α : Type} (k : String) : List (String × α) → Option α
  | [] => none
  | (k₁, v) :: rest => if k₁ = k then some v else dictLookup k rest

/-- Python dict assignment to an existing key: replace the first binding of
`k`; a list without `k` is returned unchanged (the source only assigns keys
it has just read successfully). -/
def setKey {α : Type} (k : String) (v : α) : List (String × α) → List (String × α)
  | [] => []
  | (k₁, v₁) :: rest => if k₁ = k then (k₁, v) :: rest else (k₁, v₁) :: setKey k v rest

/-- A raw metric point: command name → call rate, one timestamp, one node. -/
abbrev RawPoint := List (String × ℚ)

/-- A classified category vector: category name → rounded value. -/
abbrev CatVec := List (String × ℤ)

/-- src/msstats.py lines 15-22: sum `commands[cmd]` over the listed `args`,
a `KeyError` (absent command) contributing nothing. -/
def get_command_by_args (commands : RawPoint) (args : List String) : ℚ :=
  args.foldl (fun count cmd => count + (dictLookup cmd commands).getD 0) 0

/-- src/msstats.py lines 24-28: sum of all values of the dict. -/
def get_all_commands (commands : RawPoint) : ℚ :=
  (commands.map Prod.snd).sum

/-- The key of the Throughput category. -/
def throughputKey : String := "Throughput (Ops)"

/-- Member commands of the "GetTypeCmds" category (src/msstats.py). -/
def getTypeCmds : List String :=
  ["bitcount", "bitfield_ro", "bitpos", "getbit", "geodist", "geohash", "geopos",
   "georadiusbymember_ro", "georadius_ro", "geosearch", "hexists", "hget", "hgetall", "hkeys",
   "hlen", "hmget", "hrandfield", "hscan", "hstrlen", "hvals", "pfcount", "dump", "exists",
   "expiretime", "keys", "pexpiretime", "pttl", "randomkey", "scan", "sort", "sort_ro", "touch",
   "ttl", "type", "lindex", "llen", "lpos", "lrange", "scard", "sdiff", "sinter", "sintercard",
   "sismember", "smembers", "smismember", "srandmember", "sscan", "sunion", "zcard", "zcount",
   "zdiff", "zinter", "zintercard", "zlexcount", "zmscore", "zrandmember", "zrange",
   "zrangebylex", "zrangebyscore", "zrank", "zrevrange", "zrevrank", "zscan", "zscore", "zunion",
   "get", "getrange", "lcs", "mget", "strlen", "substr", "xinfo", "xlen", "xpending", "xrange",
   "xread", "xrevrange"]

/-- Member commands of the "SetTypeCmds" category (src/msstats.py). -/
def setTypeCmds : List String :=
  ["bitfield", "bitop", "setbit", "geoadd", "georadius", "georadiusbymember", "geosearchstore",
   "hdel", "hincrby", "hincrbyfloat", "hmset", "hset", "hsetnx", "pfadd", "pfdebug", "pfmerge",
   "copy", "del", "expire", "expireat", "migrate", "move", "persist", "pexpire", "pexpireat",
   "rename", "renamenx", "restore", "sort", "unlink", "blmove", "blmpop", "blpop", "brpop",
   "brpoplpush", "linsert", "lmove", "lmpop", "lpop", "lpush", "lpushx", "lrem", "lset", "ltrim",
   "rpop", "rpoplpush", "rpush", "rpushx", "sadd", "sdiffstore", "sinterstore", "smove", "spop",
   "srem", "sunionstore", "bzmpop", "bzpopmax", "bzpopmin", "zadd", "zdiffstore", "zincrby",
   "zinterstore", "zmpop", "zpopmax", "zpopmin", "zrangestore", "zrem", "zremrangebylex",
   "zremrangebyrank", "zremrangebyscore", "zrevrangebylex", "zrevrangebyscore", "zunionstore",
   "append", "decr", "decrby", "getdel", "getex", "getset", "incr", "incrby", "incrbyfloat",
   "mset", "msetnx", "psetex", "set", "setex", "setnx", "setrange", "xack", "xadd", "xautoclaim",
   "xclaim", "xdel", "xgroup", "xreadgroup", "xsetid", "xtrim"]

/-- Member commands of the "OtherTypeCmds" category (src/msstats.py). -/
def otherTypeCmds : List String :=
  ["asking", "cluster", "readonly", "readwrite", "auth", "client", "echo", "hello", "ping",
   "quit", "reset", "select", "eval", "evalsha", "evalsha_ro", "eval_ro", "fcall", "fcall_ro",
   "function", "script", "pfselftest", "object", "wait", "psubscribe", "publish", "pubsub",
   "punsubscribe", "spublish", "ssubscribe", "subscribe", "sunsubscribe", "unsubscribe",
   "discard", "exec", "multi", "unwatch", "watch"]

/-- Member commands of the "BitmapBasedCmds" category (src/msstats.py). -/
def bitmapBasedCmds : List String :=
  ["bitcount", "bitfield", "bitfield_ro", "bitop", "bitpos", "getbit", "setbit"]

/-- Member commands of the "ClusterBasedCmds" category (src/msstats.py). -/
def clusterBasedCmds : List String :=
  ["asking", "cluster", "readonly", "readwrite"]

/-- Member commands of the "EvalBasedCmds" category (src/msstats.py). -/
def evalBasedCmds : List String :=
  ["eval", "evalsha", "evalsha_ro", "eval_ro", "fcall", "fcall_ro", "function", "script"]

/-- Member commands of the "GeoSpatialBasedCmds" category (src/msstats.py). -/
def geoSpatialBasedCmds : List String :=
  ["geoadd", "geodist", "geohash", "geopos", "georadius", "georadiusbymember",
   "georadiusbymember_ro", "georadius_ro", "geosearch", "geosearchstore"]

/-- Member commands of the "HashBasedCmds" category (src/msstats.py). -/
def hashBasedCmds : List String :=
  ["hdel", "hexists", "hget", "hgetall", "hincrby", "hincrbyfloat", "hkeys", "hlen", "hmget",
   "hmset", "hrandfield", "hscan", "hset", "hsetnx", "hstrlen", "hvals"]

/-- Member commands of the "HyperLogLogBasedCmds" category (src/msstats.py). -/
def hyperLogLogBasedCmds : List String :=
  ["pfadd", "pfcount", "pfdebug", "pfmerge", "pfselftest"]

/-- Member commands of the "KeyBasedCmds" category (src/msstats.py). -/
def keyBasedCmds : List String :=
  ["copy", "del", "dump", "exists", "expire", "expireat", "expiretime", "keys", "migrate",
   "move", "object", "persist", "pexpire", "pexpireat", "pexpiretime", "pttl", "randomkey",
   "rename", "renamenx", "restore", "scan", "sort", "sort_ro", "touch", "ttl", "type", "unlink",
   "wait"]

/-- Member commands of the "ListBasedCmds" category (src/msstats.py). -/
def listBasedCmds : List String :=
  ["blmove", "blmpop", "blpop", "brpop", "brpoplpush", "lindex", "linsert", "llen", "lmove",
   "lmpop", "lpop", "lpos", "lpush", "lpushx", "lrange", "lrem", "lset", "ltrim", "rpop",
   "rpoplpush", "rpush", "rpushx"]

/-- Member commands of the "PubSubBasedCmds" category (src/msstats.py). -/
def pubSubBasedCmds : List String :=
  ["psubscribe", "publish", "pubsub", "punsubscribe", "spublish", "ssubscribe", "subscribe",
   "sunsubscribe", "unsubscribe"]

/-- Member commands of the "SetBasedCmds" category (src/msstats.py). -/
def setBasedCmds : List String :=
  ["sadd", "scard", "sdiff", "sdiffstore", "sinter", "sintercard", "sinterstore", "sismember",
   "smembers", "smismember", "smove", "spop", "srandmember", "srem", "sscan", "sunion",
   "sunionstore"]

/-- Member commands of the "SortedSetBasedCmds" category (src/msstats.py). -/
def sortedSetBasedCmds : List String :=
  ["bzmpop", "bzpopmax", "bzpopmin", "zadd", "zcard", "zcount", "zdiff", "zdiffstore", "zincrby",
   "zinter", "zintercard", "zinterstore", "zlexcount", "zmpop", "zmscore", "zpopmax", "zpopmin",
   "zrandmember", "zrange", "zrangebylex", "zrangebyscore", "zrangestore", "zrank", "zrem",
   "zremrangebylex", "zremrangebyrank", "zremrangebyscore", "zrevrange", "zrevrangebylex",
   "zrevrangebyscore", "zrevrank", "zscan", "zscore", "zunion", "zunionstore"]

/-- Member commands of the "StringBasedCmds" category (src/msstats.py). -/
def stringBasedCmds : List String :=
  ["append", "decr", "decrby", "get", "getdel", "getex", "getrange", "getset", "incr", "incrby",
   "incrbyfloat", "lcs", "mget", "mset", "msetnx", "psetex", "set", "setex", "setnx", "setrange",
   "strlen", "substr"]

/-- Member commands of the "StreamBasedCmds" category (src/msstats.py). -/
def streamBasedCmds : List String :=
  ["xack", "xadd", "xautoclaim", "xclaim", "xdel", "xgroup", "xinfo", "xlen", "xpending",
   "xrange", "xread", "xreadgroup", "xrevrange", "xsetid", "xtrim"]

/-- Member commands of the "TransactionBasedCmds" category (src/msstats.py). -/
def transactionBasedCmds : List String :=
  ["discard", "exec", "multi", "unwatch", "watch"]

/-- The 17 non-Throughput categories with their member command lists, in the
order src/msstats.py lines 59-564 assigns them. -/
def cat17 : List (String × List String) :=
  [("GetTypeCmds", getTypeCmds),
   ("SetTypeCmds", setTypeCmds),
   ("OtherTypeCmds", otherTypeCmds),
   ("BitmapBasedCmds", bitmapBasedCmds),
   ("ClusterBasedCmds", clusterBasedCmds),
   ("EvalBasedCmds", evalBasedCmds),
   ("GeoSpatialBasedCmds", geoSpatialBasedCmds),
   ("HashBasedCmds", hashBasedCmds),
   ("HyperLogLogBasedCmds", hyperLogLogBasedCmds),
   ("KeyBasedCmds", keyBasedCmds),
   ("ListBasedCmds", listBasedCmds),
   ("PubSubBasedCmds", pubSubBasedCmds),
   ("SetBasedCmds", setBasedCmds),
   ("SortedSetBasedCmds", sortedSetBasedCmds),
   ("StringBasedCmds", stringBasedCmds),
   ("StreamBasedCmds", streamBasedCmds),
   ("TransactionBasedCmds", transactionBasedCmds)]

/-- Every command name appearing in some category member list. -/
def allCategorizedCmds : List String :=
  (cat17.map Prod.snd).flatten

/-- src/msstats.py lines 59-564 (`processMetricPoint`): classify one raw
point into the 18-key category vector, keys inserted in source order. -/
def processMetricPoint (metricPoint : RawPoint) : CatVec :=
  (throughputKey, pyround (get_all_commands metricPoint)) ::
    cat17.map (fun c => (c.1, pyround (get_command_by_args metricPoint c.2)))

/-- src/msstats.py lines 31-50: the zero-initialized 18-key accumulator. -/
def nodeStatsInit : CatVec :=
  [("Throughput (Ops)", 0),
   ("GetTypeCmds", 0),
   ("SetTypeCmds", 0),
   ("OtherTypeCmds", 0),
   ("BitmapBasedCmds", 0),
   ("ClusterBasedCmds", 0),
   ("EvalBasedCmds", 0),
   ("GeoSpatialBasedCmds", 0),
   ("HashBasedCmds", 0),
   ("HyperLogLogBasedCmds", 0),
   ("KeyBasedCmds", 0),
   ("ListBasedCmds", 0),
   ("PubSubBasedCmds", 0),
   ("SetBasedCmds", 0),
   ("SortedSetBasedCmds", 0),
   ("StringBasedCmds", 0),
   ("StreamBasedCmds", 0),
   ("TransactionBasedCmds", 0)]

/-- The 18 fixed category keys, in accumulator order. -/
def catKeys : List String := nodeStatsInit.map Prod.fst

/-- One iteration of the inner loop of src/msstats.py lines 53-55:
read `nodeStats[key]` (a `KeyError`, i.e. `none`, if absent), and overwrite
it when the incoming value is larger. -/
def statStep (nodeStats : CatVec) (kv : String × ℤ) : Option CatVec :=
  match dictLookup kv.1 nodeStats with
  | none => none
  | some cur => some (if cur < kv.2 then setKey kv.1 kv.2 nodeStats else nodeStats)

/-- Fold one processed metric point into the accumulator
(src/msstats.py lines 53-55, iterating over `processedMetricPoint.items()`). -/
def processPoint (nodeStats : CatVec) (point : CatVec) : Option CatVec :=
  point.foldlM statStep nodeStats

/-- src/msstats.py lines 30-57 (`processNodeStats`): reduce the window of
processed points (iterated in dict-value order) into one summary vector;
`none` models the `KeyError` raised on a key outside the 18. -/
def processNodeStats (processedMetricPoints : List CatVec) : Option CatVec :=
  processedMetricPoints.foldlM processPoint nodeStatsInit

/-- src/msstats.py line 636: role label normalization of the xlsx exporter:
`"Master" if result.metric.labels[role] == primary else "Replica"`. -/
def msstatsNodeRole (role : String) : String :=
  if role = "primary" then "Master" else "Replica"

/-- src/memorystore.py lines 177-181: role label normalization of the CSV
exporter (applied when the role label is non-empty). -/
def memorystoreNodeRole (role : String) : String :=
  if role = "primary" then "Master"
  else if role = "replica" then "Replica"
  else role

/-- Role normalization as the spec words it (§6): "primary" → "Master",
"replica" → "Replica", any other role label passed through verbatim. -/
def specNodeRole (role : String) : String :=
  if role = "primary" then "Master"
  else if role = "replica" then "Replica"
  else role

/-- src/memorystore.py lines 214-228 (`_apply_processed_categories`), for one
node entry: classify each point, then reduce — but an entry with an empty
`points` dict gets the empty dict `{}` as its `commandstats`
(`ms.processNodeStats(processed) if processed else {}`). -/
def applyProcessedCategories (points : List RawPoint) : Option CatVec :=
  if points.isEmpty then some []
  else processNodeStats (points.map processMetricPoint)

/-- Spec-side value of one category (spec §4.2): the sum of `rawPoint[cmd]`
over every `cmd` of the member list that is present in `rawPoint`. -/
def specCategorySum (metricPoint : RawPoint) (members : List String) : ℚ :=
  ((members.filter (fun cmd => (dictLookup cmd metricPoint).isSome)).map
    (fun cmd => (dictLookup cmd metricPoint).getD 0)).sum

/-- All values bound to key `c` in an association list, in order. -/
def valsFor {α : Type} (c : String) (l : List (String × α)) : List α :=
  l.filterMap (fun kv => if kv.1 = c then some kv.2 else none)

/-- The canonical accumulator shape: the 18 keys in order, values given by
`f`. -/
def canon (f : String → ℤ) : CatVec :=
  catKeys.map (fun c => (c, f c))

/-- Remove the first binding of a key from an association list. -/
def removeKey {α : Type} (k : String) : List (String × α) → List (String × α)
  | [] => []
  | (k₁, v) :: rest => if k₁ = k then rest else (k₁, v) :: removeKey k rest

/-! ### Properties of `pyround` -/

theorem pyround_floor_le (q : ℚ) : ⌊q⌋ ≤ pyround q := by
  unfold pyround; split_ifs <;> omega

theorem pyround_le_floor_add_one (q : ℚ) : pyround q ≤ ⌊q⌋ + 1 := by
  unfold pyround; split_ifs <;> omega

theorem pyround_mono {q r : ℚ} (h : q ≤ r) : pyround q ≤ pyround r := by
  rcases lt_or_le ⌊q⌋ ⌊r⌋ with hf | hf
  · calc pyround q ≤ ⌊q⌋ + 1 := pyround_le_floor_add_one q
      _ ≤ ⌊r⌋ := by omega
      _ ≤ pyround r := pyround_floor_le r
  · have hfe : ⌊q⌋ = ⌊r⌋ := le_antisymm (Int.floor_le_floor h) hf
    have hqr : q - (⌊r⌋ : ℚ) ≤ r - (⌊r⌋ : ℚ) := by linarith
    unfold pyround
    rw [hfe]
    split_ifs <;> first | omega | (exfalso; linarith)

theorem pyround_zero : pyround 0 = 0 := by
  unfold pyround
  norm_num

/-! ### Association-list lemmas -/

theorem dictLookup_cons {α : Type} (k₁ k : String) (v : α) (l : List (String × α)) :
    dictLookup k ((k₁, v) :: l) = if k₁ = k then some v else dictLookup k l := rfl

theorem dictLookup_eq_none_iff {α : Type} (k : String) (l : List (String × α)) :
    dictLookup k l = none ↔ k ∉ l.map Prod.fst := by
  induction l with
  | nil => simp [dictLookup]
  | cons kv rest ih =>
    obtain ⟨k₁, v⟩ := kv
    by_cases hk : k₁ = k
    · subst hk; simp [dictLookup]
    · simp [dictLookup, hk, ih, Ne.symm hk]

theorem dictLookup_mem {α : Type} {k : String} {v : α} {l : List (String × α)}
    (h : dictLookup k l = some v) : (k, v) ∈ l := by
  induction l with
  | nil => simp [dictLookup] at h
  | cons kv rest ih =>
    obtain ⟨k₁, v₁⟩ := kv
    by_cases hk : k₁ = k
    · simp [dictLookup, hk] at h
      subst hk; subst h; exact List.mem_cons_self _ _
    · simp [dictLookup, hk] at h
      exact List.mem_cons_of_mem _ (ih h)

theorem dictLookup_isSome_iff {α : Type} (k : String) (l : List (String × α)) :
    (dictLookup k l).isSome ↔ k ∈ l.map Prod.fst := by
  cases h : dictLookup k l with
  | none =>
    have hnot := (dictLookup_eq_none_iff k l).mp h
    simp [hnot]
  | some v =>
    simp only [Option.isSome_some, true_iff]
    exact List.mem_map.mpr ⟨(k, v), dictLookup_mem h, rfl⟩

theorem dictLookup_map_self {β : Type} (F : String → β) (ks : List String) (c : String)
    (h : c ∈ ks) : dictLookup c (ks.map (fun k => (k, F k))) = some (F c) := by
  induction ks with
  | nil => simp at h
  | cons k rest ih =>
    by_cases hk : k = c
    · subst hk; simp [dictLookup]
    · have : c ∈ rest := by
        rcases List.mem_cons.mp h with h₁ | h₁
        · exact (hk h₁.symm).elim
        · exact h₁
      simp [dictLookup, hk, ih this]

theorem dictLookup_append_right_ne {α : Type} {c cmd : String} (hne : c ≠ cmd)
    (l : List (String × α)) (v : α) :
    dictLookup c (l ++ [(cmd, v)]) = dictLookup c l := by
  induction l with
  | nil => simp [dictLookup, Ne.symm hne]
  | cons kv rest ih =>
    obtain ⟨k₁, v₁⟩ := kv
    by_cases hk : k₁ = c <;> simp [dictLookup, hk, ih]

theorem setKey_keys {α : Type} (k : String) (v : α) (l : List (String × α)) :
    (setKey k v l).map Prod.fst = l.map Prod.fst := by
  induction l with
  | nil => rfl
  | cons kv rest ih =>
    obtain ⟨k₁, v₁⟩ := kv
    by_cases hk : k₁ = k <;> simp [setKey, hk, ih]

theorem setKey_map_nodup {g : String → ℤ} {ks : List String} (hnd : ks.Nodup)
    (k : String) (v : ℤ) :
    setKey k v (ks.map (fun c => (c, g c))) =
      ks.map (fun c => (c, if c = k then v else g c)) := by
  induction ks with
  | nil => rfl
  | cons c rest ih =>
    rcases List.nodup_cons.mp hnd with ⟨hc, hrest⟩
    by_cases hk : c = k
    · subst hk
      have hmap : rest.map (fun x => (x, if x = c then v else g x)) =
          rest.map (fun x => (x, g x)) :=
        List.map_congr_left (fun x hx => by
          have hxc : ¬ x = c := fun h => hc (h ▸ hx)
          simp [hxc])
      simp [setKey, hmap]
    · simp only [List.map_cons, setKey, if_neg hk]
      rw [ih hrest]

theorem removeKey_subset {α : Type} {k : String} {l : List (String × α)} {kv : String × α}
    (h : kv ∈ removeKey k l) : kv ∈ l := by
  induction l with
  | nil => simp [removeKey] at h
  | cons kv₁ rest ih =>
    obtain ⟨k₁, v₁⟩ := kv₁
    by_cases hk : k₁ = k
    · simp only [removeKey, if_pos hk] at h
      exact List.mem_cons_of_mem _ h
    · simp only [removeKey, if_neg hk] at h
      rcases List.mem_cons.mp h with h₁ | h₁
      · exact h₁ ▸ List.mem_cons_self _ _
      · exact List.mem_cons_of_mem _ (ih h₁)

theorem dictLookup_removeKey_ne {α : Type} {c k : String} (hne : c ≠ k)
    (l : List (String × α)) : dictLookup c (removeKey k l) = dictLookup c l := by
  induction l with
  | nil => rfl
  | cons kv rest ih =>
    obtain ⟨k₁, v₁⟩ := kv
    by_cases hk : k₁ = k
    · subst hk
      have : k₁ ≠ c := fun h => hne h.symm
      simp [removeKey, dictLookup, this]
    · by_cases hc : k₁ = c <;> simp [removeKey, dictLookup, hk, hc, hne, ih]

theorem removeKey_of_none {α : Type} {k : String} {l : List (String × α)}
    (h : dictLookup k l = none) : removeKey k l = l := by
  induction l with
  | nil => rfl
  | cons kv rest ih =>
    obtain ⟨k₁, v₁⟩ := kv
    by_cases hk : k₁ = k
    · simp [dictLookup, hk] at h
    · simp only [dictLookup, if_neg hk] at h
      simp [removeKey, hk, ih h]

theorem sum_removeKey {k : String} {l : List (String × ℚ)} {v : ℚ}
    (h : dictLookup k l = some v) :
    (l.map Prod.snd).sum = v + ((removeKey k l).map Prod.snd).sum := by
  induction l with
  | nil => simp [dictLookup] at h
  | cons kv rest ih =>
    obtain ⟨k₁, v₁⟩ := kv
    by_cases hk : k₁ = k
    · simp only [dictLookup, if_pos hk] at h
      obtain rfl : v₁ = v := by injection h
      simp [removeKey, hk]
    · simp only [dictLookup, if_neg hk] at h
      simp only [removeKey, if_neg hk, List.map_cons, List.sum_cons, ih h]
      ring

/-! ### The classifier as a sum -/

theorem foldl_add_eq (h : String → ℚ) :
    ∀ (args : List String) (a : ℚ),
      args.foldl (fun c cmd => c + h cmd) a = a + (args.map h).sum := by
  intro args
  induction args with
  | nil => intro a; simp
  | cons cmd rest ih =>
    intro a
    simp only [List.foldl_cons, List.map_cons, List.sum_cons, ih]
    ring

theorem get_command_by_args_eq_sum (m : RawPoint) (args : List String) :
    get_command_by_args m args =
      (args.map (fun cmd => (dictLookup cmd m).getD 0)).sum := by
  unfold get_command_by_args
  rw [foldl_add_eq]
  simp

theorem specCategorySum_eq_sum (m : RawPoint) (args : List String) :
    specCategorySum m args =
      (args.map (fun cmd => (dictLookup cmd m).getD 0)).sum := by
  induction args with
  | nil => simp [specCategorySum]
  | cons cmd rest ih =>
    by_cases hs : (dictLookup cmd m).isSome
    · simp only [specCategorySum, List.filter_cons, hs, if_pos, List.map_cons,
        List.sum_cons] at *
      rw [ih]
    · have hn : dictLookup cmd m = none := Option.not_isSome_iff_eq_none.mp hs
      simp only [specCategorySum, List.filter_cons, hs, List.map_cons, List.sum_cons] at *
      simp only [Bool.false_eq_true, if_false, hn, Option.getD_none, zero_add]
      rw [ih]

theorem get_command_by_args_eq_spec (m : RawPoint) (args : List String) :
    get_command_by_args m args = specCategorySum m args := by
  rw [get_command_by_args_eq_sum, specCategorySum_eq_sum]

theorem sum_lookup_le_total :
    ∀ (args : List String) (m : RawPoint), args.Nodup → (∀ kv ∈ m, 0 ≤ kv.2) →
      (args.map (fun cmd => (dictLookup cmd m).getD 0)).sum ≤ (m.map Prod.snd).sum := by
  intro args
  induction args with
  | nil =>
    intro m _ hm
    simp only [List.map_nil, List.sum_nil]
    refine List.sum_nonneg ?_
    intro x hx
    obtain ⟨kv, hkv, rfl⟩ := List.mem_map.mp hx
    exact hm kv hkv
  | cons cmd rest ih =>
    intro m hnd hm
    rcases List.nodup_cons.mp hnd with ⟨hcmd, hrest⟩
    have hmap : rest.map (fun c => (dictLookup c m).getD 0) =
        rest.map (fun c => (dictLookup c (removeKey cmd m)).getD 0) :=
      (List.map_congr_left (fun c hcr => by
        rw [dictLookup_removeKey_ne (fun h => hcmd (by rwa [h] at hcr)) m])).symm
    have hm₂ : ∀ kv ∈ removeKey cmd m, 0 ≤ kv.2 :=
      fun kv hkv => hm kv (removeKey_subset hkv)
    have ihle := ih (removeKey cmd m) hrest hm₂
    simp only [List.map_cons, List.sum_cons]
    calc (dictLookup cmd m).getD 0 + (rest.map (fun c => (dictLookup c m).getD 0)).sum
        = (dictLookup cmd m).getD 0 +
            (rest.map (fun c => (dictLookup c (removeKey cmd m)).getD 0)).sum := by
          rw [hmap]
      _ ≤ (dictLookup cmd m).getD 0 + ((removeKey cmd m).map Prod.snd).sum := by
          linarith [ihle]
      _ ≤ (m.map Prod.snd).sum := by
          cases h : dictLookup cmd m with
          | none => simp [h, removeKey_of_none h]
          | some v => simp [h, sum_removeKey h]

theorem get_command_by_args_le_get_all {m : RawPoint} {args : List String}
    (hnd : args.Nodup) (hm : ∀ kv ∈ m, 0 ≤ kv.2) :
    get_command_by_args m args ≤ get_all_commands m := by
  rw [get_command_by_args_eq_sum]
  exact sum_lookup_le_total args m hnd hm

/-! ### Looking up the classifier's output -/

theorem cat17_names_nodup : (cat17.map Prod.fst).Nodup := by decide

theorem catKeys_nodup : catKeys.Nodup := by decide

theorem throughputKey_not_cat17 : throughputKey ∉ cat17.map Prod.fst := by decide

theorem cat17_members_nodup : ∀ p ∈ cat17, p.2.Nodup := by decide

theorem processMetricPoint_keys (m : RawPoint) :
    (processMetricPoint m).map Prod.fst = catKeys := rfl

theorem dictLookup_pmp_throughput (m : RawPoint) :
    dictLookup throughputKey (processMetricPoint m) =
      some (pyround (get_all_commands m)) := by
  simp [processMetricPoint, dictLookup]

theorem dictLookup_map_keyed {β γ : Type} (F : String → β → γ) :
    ∀ (l : List (String × β)), (l.map Prod.fst).Nodup →
      ∀ {C : String} {args : β}, (C, args) ∈ l →
        dictLookup C (l.map (fun c => (c.1, F c.1 c.2))) = some (F C args) := by
  intro l
  induction l with
  | nil => intro _ C args h; simp at h
  | cons p rest ih =>
    obtain ⟨k, as⟩ := p
    intro hnd C args hm
    rcases List.nodup_cons.mp hnd with ⟨hk, hrest⟩
    by_cases hkC : k = C
    · subst hkC
      rcases List.mem_cons.mp hm with h₁ | h₁
      · cases h₁
        simp [dictLookup]
      · exact absurd (List.mem_map.mpr ⟨(k, args), h₁, rfl⟩) hk
    · have h₁ : (C, args) ∈ rest := by
        rcases List.mem_cons.mp hm with h | h
        · exact absurd (congrArg Prod.fst h).symm hkC
        · exact h
      simp only [List.map_cons, dictLookup_cons, if_neg hkC]
      exact ih hrest h₁

theorem dictLookup_pmp_cat {m : RawPoint} {C : String} {args : List String}
    (hm : (C, args) ∈ cat17) :
    dictLookup C (processMetricPoint m) =
      some (pyround (get_command_by_args m args)) := by
  have hC : C ∈ cat17.map Prod.fst := List.mem_map.mpr ⟨(C, args), hm, rfl⟩
  have hne : throughputKey ≠ C := fun h => throughputKey_not_cat17 (h ▸ hC)
  simp only [processMetricPoint, dictLookup_cons, if_neg hne]
  exact dictLookup_map_keyed (fun _ as => pyround (get_command_by_args m as))
    cat17 cat17_names_nodup hm

/-! ### Folded maxima -/

theorem le_foldl_max : ∀ (l : List ℤ) (a : ℤ), a ≤ l.foldl max a := by
  intro l
  induction l with
  | nil => intro a; simp
  | cons b l ih =>
    intro a
    rw [List.foldl_cons]
    exact le_trans (le_max_left a b) (ih (max a b))

theorem mem_le_foldl_max : ∀ {l : List ℤ} {x : ℤ}, x ∈ l → ∀ (a : ℤ), x ≤ l.foldl max a := by
  intro l
  induction l with
  | nil => intro x h; simp at h
  | cons b l ih =>
    intro x h a
    rw [List.foldl_cons]
    rcases List.mem_cons.mp h with h₁ | h₁
    · subst h₁
      exact le_trans (le_max_right a x) (le_foldl_max l (max a x))
    · exact ih h₁ (max a b)

theorem foldl_max_eq_or_mem : ∀ (l : List ℤ) (a : ℤ), l.foldl max a = a ∨ l.foldl max a ∈ l := by
  intro l
  induction l with
  | nil => intro a; left; rfl
  | cons b l ih =>
    intro a
    rw [List.foldl_cons]
    rcases ih (max a b) with h | h
    · rcases max_choice a b with h₁ | h₁
      · left; rw [h, h₁]
      · right; rw [h, h₁]; exact List.mem_cons_self _ _
    · right; exact List.mem_cons_of_mem _ h

theorem foldl_max_nonneg {a : ℤ} (l : List ℤ) (h : 0 ≤ a) : 0 ≤ l.foldl max a :=
  le_trans h (le_foldl_max l a)

theorem foldl_max_perm {l₁ l₂ : List ℤ} (h : l₁.Perm l₂) :
    ∀ (a : ℤ), l₁.foldl max a = l₂.foldl max a := by
  induction h with
  | nil => intro a; rfl
  | cons x _ ih =>
    intro a
    simp only [List.foldl_cons]
    exact ih _
  | swap x y l =>
    intro a
    simp only [List.foldl_cons]
    rw [sup_right_comm]
  | trans _ _ ih₁ ih₂ =>
    intro a
    rw [ih₁, ih₂]

/-! ### Values bound to a key -/

theorem valsFor_cons {α : Type} (c : String) (kv : String × α) (l : List (String × α)) :
    valsFor c (kv :: l) = if kv.1 = c then kv.2 :: valsFor c l else valsFor c l := by
  by_cases h : kv.1 = c <;> simp [valsFor, List.filterMap_cons, h]

theorem valsFor_append {α : Type} (c : String) (l₁ l₂ : List (String × α)) :
    valsFor c (l₁ ++ l₂) = valsFor c l₁ ++ valsFor c l₂ := by
  simp [valsFor, List.filterMap_append]

theorem valsFor_of_not_mem {α : Type} {c : String} {l : List (String × α)}
    (h : c ∉ l.map Prod.fst) : valsFor c l = [] := by
  induction l with
  | nil => rfl
  | cons kv rest ih =>
    obtain ⟨k, v⟩ := kv
    simp only [List.map_cons, List.mem_cons, not_or] at h
    rw [valsFor_cons, if_neg (show ¬ (k, v).1 = c from fun hk => h.1 hk.symm), ih h.2]

theorem valsFor_of_nodup_mem {α : Type} {c : String} {l : List (String × α)}
    (hnd : (l.map Prod.fst).Nodup) (hc : c ∈ l.map Prod.fst) :
    ∃ v, dictLookup c l = some v ∧ valsFor c l = [v] := by
  induction l with
  | nil => simp at hc
  | cons kv rest ih =>
    obtain ⟨k, v⟩ := kv
    simp only [List.map_cons] at hnd hc
    rcases List.nodup_cons.mp hnd with ⟨hk, hrest⟩
    by_cases hkc : k = c
    · subst hkc
      refine ⟨v, by simp [dictLookup], ?_⟩
      rw [valsFor_cons, if_pos rfl, valsFor_of_not_mem hk]
    · have hc₂ : c ∈ rest.map Prod.fst := by
        rcases List.mem_cons.mp hc with h | h
        · exact absurd h.symm hkc
        · exact h
      obtain ⟨w, hw₁, hw₂⟩ := ih hrest hc₂
      exact ⟨w, by simp [dictLookup, hkc, hw₁], by rw [valsFor_cons, if_neg hkc, hw₂]⟩

/-! ### The reducer in canonical form -/

theorem valsFor_pair_cons {α : Type} (c k : String) (v : α) (l : List (String × α)) :
    valsFor c ((k, v) :: l) = if k = c then v :: valsFor c l else valsFor c l := by
  by_cases h : k = c <;> simp [valsFor, List.filterMap_cons, h]

theorem canon_keys (f : String → ℤ) : (canon f).map Prod.fst = catKeys := rfl

theorem dictLookup_canon (f : String → ℤ) {c : String} (hc : c ∈ catKeys) :
    dictLookup c (canon f) = some (f c) := by
  unfold canon
  exact dictLookup_map_self f catKeys c hc

theorem nodeStatsInit_eq_canon : nodeStatsInit = canon (fun _ => 0) := rfl

theorem statStep_canon (f : String → ℤ) (k : String) (v : ℤ) (hk : k ∈ catKeys) :
    statStep (canon f) (k, v) =
      some (canon (fun c => if c = k then max (f c) v else f c)) := by
  have hl := dictLookup_canon f hk
  simp only [statStep, hl]
  by_cases h : f k < v
  · rw [if_pos h]
    unfold canon
    rw [setKey_map_nodup catKeys_nodup]
    congr 1
    refine List.map_congr_left ?_
    intro c _
    by_cases hck : c = k
    · subst hck
      simp [max_eq_right h.le]
    · simp [hck]
  · rw [if_neg h]
    unfold canon
    congr 1
    refine List.map_congr_left ?_
    intro c _
    by_cases hck : c = k
    · subst hck
      simp [max_eq_left (not_lt.mp h)]
    · simp [hck]

theorem processPoint_canon :
    ∀ (p : CatVec) (f : String → ℤ), (∀ kv ∈ p, kv.1 ∈ catKeys) →
      ∃ g, processPoint (canon f) p = some (canon g) ∧
        ∀ c, g c = (valsFor c p).foldl max (f c) := by
  intro p
  induction p with
  | nil =>
    intro f _
    exact ⟨f, rfl, fun c => rfl⟩
  | cons kv p ih =>
    intro f hkeys
    obtain ⟨k, v⟩ := kv
    have hk : k ∈ catKeys := hkeys (k, v) (List.mem_cons_self _ _)
    have hrest : ∀ kv ∈ p, kv.1 ∈ catKeys :=
      fun kv h => hkeys kv (List.mem_cons_of_mem _ h)
    obtain ⟨g, hg, hgc⟩ := ih (fun c => if c = k then max (f c) v else f c) hrest
    refine ⟨g, ?_, ?_⟩
    · unfold processPoint at hg ⊢
      rw [List.foldlM_cons, statStep_canon f k v hk]
      simpa using hg
    · intro c
      rw [hgc c, valsFor_pair_cons]
      by_cases hck : k = c
      · subst hck
        rw [if_pos rfl, if_pos rfl, List.foldl_cons]
      · rw [if_neg hck, if_neg (fun h => hck h.symm)]

theorem foldNodeStats_canon :
    ∀ (w : List CatVec) (f : String → ℤ), (∀ p ∈ w, ∀ kv ∈ p, kv.1 ∈ catKeys) →
      ∃ g, w.foldlM processPoint (canon f) = some (canon g) ∧
        ∀ c, g c = (valsFor c w.flatten).foldl max (f c) := by
  intro w
  induction w with
  | nil =>
    intro f _
    exact ⟨f, rfl, fun c => rfl⟩
  | cons p w ih =>
    intro f h
    obtain ⟨g₁, hg₁, hgc₁⟩ := processPoint_canon p f (h p (List.mem_cons_self _ _))
    obtain ⟨g, hg, hgc⟩ := ih g₁ (fun q hq kv hkv => h q (List.mem_cons_of_mem _ hq) kv hkv)
    refine ⟨g, ?_, ?_⟩
    · rw [List.foldlM_cons, hg₁]
      simpa using hg
    · intro c
      rw [List.flatten_cons, valsFor_append, List.foldl_append, hgc c, hgc₁ c]

theorem processNodeStats_canon {w : List CatVec}
    (h : ∀ p ∈ w, ∀ kv ∈ p, kv.1 ∈ catKeys) :
    ∃ g, processNodeStats w = some (canon g) ∧
      ∀ c, g c = (valsFor c w.flatten).foldl max 0 := by
  obtain ⟨g, hg, hgc⟩ := foldNodeStats_canon w (fun _ => 0) h
  exact ⟨g, by rw [processNodeStats, nodeStatsInit_eq_canon]; exact hg, hgc⟩

/-! ### Key preservation for arbitrary successful runs -/

theorem statStep_keys {acc : CatVec} {kv : String × ℤ} {res : CatVec}
    (h : statStep acc kv = some res) : res.map Prod.fst = acc.map Prod.fst := by
  unfold statStep at h
  cases hl : dictLookup kv.1 acc with
  | none => rw [hl] at h; simp at h
  | some cur =>
    rw [hl] at h
    have h₂ := Option.some.inj h
    rw [← h₂]
    by_cases hc : cur < kv.2 <;> simp [hc, setKey_keys]

theorem processPoint_keys :
    ∀ (p : CatVec) (acc res : CatVec), processPoint acc p = some res →
      res.map Prod.fst = acc.map Prod.fst := by
  intro p
  induction p with
  | nil =>
    intro acc res h
    rw [← Option.some.inj h]
  | cons kv p ih =>
    intro acc res h
    unfold processPoint at h
    rw [List.foldlM_cons] at h
    cases hs : statStep acc kv with
    | none =>
      rw [hs] at h
      exact Option.noConfusion (show (none : Option CatVec) = some res from h)
    | some acc₁ =>
      rw [hs] at h
      have h₂ : processPoint acc₁ p = some res := h
      exact (ih acc₁ res h₂).trans (statStep_keys hs)

theorem foldWindow_keys :
    ∀ (w : List CatVec) (acc res : CatVec), w.foldlM processPoint acc = some res →
      res.map Prod.fst = acc.map Prod.fst := by
  intro w
  induction w with
  | nil =>
    intro acc res h
    rw [← Option.some.inj h]
  | cons p w ih =>
    intro acc res h
    rw [List.foldlM_cons] at h
    cases hs : processPoint acc p with
    | none =>
      rw [hs] at h
      exact Option.noConfusion (show (none : Option CatVec) = some res from h)
    | some acc₁ =>
      rw [hs] at h
      have h₂ : w.foldlM processPoint acc₁ = some res := h
      exact (ih acc₁ res h₂).trans (processPoint_keys p acc acc₁ hs)

theorem processNodeStats_keys {w : List CatVec} {res : CatVec}
    (h : processNodeStats w = some res) : res.map Prod.fst = catKeys :=
  foldWindow_keys w nodeStatsInit res h

/-! ### Per-point values across a window -/

theorem valsFor_flatten_of_keys {w : List CatVec} {c : String} (hc : c ∈ catKeys)
    (hkeys : ∀ p ∈ w, p.map Prod.fst = catKeys) :
    valsFor c w.flatten = w.map (fun p => (dictLookup c p).getD 0) := by
  induction w with
  | nil => rfl
  | cons p w ih =>
    rw [List.flatten_cons, valsFor_append,
      ih (fun q hq => hkeys q (List.mem_cons_of_mem _ hq))]
    have hp := hkeys p (List.mem_cons_self _ _)
    obtain ⟨v, hv₁, hv₂⟩ :=
      valsFor_of_nodup_mem (l := p) (by rw [hp]; exact catKeys_nodup) (by rw [hp]; exact hc)
    rw [hv₂, List.map_cons, hv₁]
    simp

theorem map_getD_nonneg {w : List CatVec} {c : String}
    (hnn : ∀ p ∈ w, ∀ kv ∈ p, 0 ≤ kv.2) :
    ∀ x ∈ w.map (fun p => (dictLookup c p).getD 0), 0 ≤ x := by
  intro x hx
  obtain ⟨p, hp, rfl⟩ := List.mem_map.mp hx
  cases h : dictLookup c p with
  | none => simp
  | some v =>
    simp only [Option.getD_some]
    exact hnn p hp (c, v) (dictLookup_mem h)

theorem get_command_by_args_nil : ∀ args : List String, get_command_by_args [] args = 0 := by
  intro args
  rw [get_command_by_args_eq_sum]
  induction args with
  | nil => rfl
  | cons a l ih =>
    simp only [List.map_cons, List.sum_cons, ih]
    simp [dictLookup]

/-! ### The claims -/

/-- C1: for every raw point and each of the 17 non-Throughput categories `C`,
the classifier's output value for `C` is the rounded sum of `rawPoint[cmd]`
over the members of `C` present in the point (absent members contribute 0,
non-members contribute nothing), and a command such as "get" belongs to both
GetTypeCmds and StringBasedCmds, contributing its full value to each. -/
theorem claim1_classifier_category_sums (m : RawPoint) {C : String} {args : List String}
    (hC : (C, args) ∈ cat17) :
    dictLookup C (processMetricPoint m) = some (pyround (specCategorySum m args)) ∧
    "get" ∈ getTypeCmds ∧ "get" ∈ stringBasedCmds ∧
    ("GetTypeCmds", getTypeCmds) ∈ cat17 ∧ ("StringBasedCmds", stringBasedCmds) ∈ cat17 := by
  refine ⟨?_, by decide, by decide, by decide, by decide⟩
  rw [dictLookup_pmp_cat hC, get_command_by_args_eq_spec]

/-- Witness for C1 at the point with get mapped to 3 and the category
GetTypeCmds. -/
theorem claim1_witness :
    dictLookup "GetTypeCmds" (processMetricPoint [("get", (3 : ℚ))]) =
      some (pyround (specCategorySum [("get", (3 : ℚ))] getTypeCmds)) :=
  (claim1_classifier_category_sums [("get", (3 : ℚ))] (by decide)).1

/-- C3: the Throughput value is the rounded sum of all values of the raw
point, and a command name outside every category member list contributes to
Throughput but changes no other category value. -/
theorem claim3_throughput_total (m : RawPoint) (_hnd : (m.map Prod.fst).Nodup) :
    dictLookup throughputKey (processMetricPoint m) =
      some (pyround ((m.map Prod.snd).sum)) ∧
    (∀ (cmd : String) (v : ℚ), cmd ∉ allCategorizedCmds →
      dictLookup throughputKey (processMetricPoint (m ++ [(cmd, v)])) =
        some (pyround ((m.map Prod.snd).sum + v)) ∧
      ∀ (C : String) (args : List String), (C, args) ∈ cat17 →
        dictLookup C (processMetricPoint (m ++ [(cmd, v)])) =
          dictLookup C (processMetricPoint m)) := by
  constructor
  · exact dictLookup_pmp_throughput m
  · intro cmd v hcmd
    constructor
    · have h₁ : get_all_commands (m ++ [(cmd, v)]) = (m.map Prod.snd).sum + v := by
        unfold get_all_commands
        rw [List.map_append, List.sum_append]
        simp
      rw [dictLookup_pmp_throughput, h₁]
    · intro C args hC
      rw [dictLookup_pmp_cat hC, dictLookup_pmp_cat hC]
      have hnotin : cmd ∉ args := fun h =>
        hcmd (List.mem_flatten.mpr ⟨args, List.mem_map.mpr ⟨(C, args), hC, rfl⟩, h⟩)
      have h₂ : get_command_by_args (m ++ [(cmd, v)]) args = get_command_by_args m args := by
        rw [get_command_by_args_eq_sum, get_command_by_args_eq_sum]
        refine congrArg List.sum (List.map_congr_left ?_)
        intro c hc
        have hcne : c ≠ cmd := fun h => hnotin (by rwa [h] at hc)
        rw [dictLookup_append_right_ne hcne m v]
      rw [h₂]

/-- Witness for C3 at the point with get mapped to 3 and unknowncmd to 7. -/
theorem claim3_witness :
    dictLookup throughputKey (processMetricPoint [("get", (3 : ℚ)), ("unknowncmd", 7)]) =
      some (pyround (([("get", (3 : ℚ)), ("unknowncmd", 7)].map Prod.snd).sum)) :=
  (claim3_throughput_total [("get", (3 : ℚ)), ("unknowncmd", 7)] (by decide)).1

/-- C6: on a raw point with non-negative rates, Throughput dominates every
other category value of the same output vector. -/
theorem claim6_throughput_dominates (m : RawPoint) (hnn : ∀ kv ∈ m, 0 ≤ kv.2)
    {C : String} {args : List String} (hC : (C, args) ∈ cat17) :
    (dictLookup C (processMetricPoint m)).getD 0 ≤
      (dictLookup throughputKey (processMetricPoint m)).getD 0 := by
  rw [dictLookup_pmp_cat hC, dictLookup_pmp_throughput]
  simp only [Option.getD_some]
  exact pyround_mono (get_command_by_args_le_get_all (cat17_members_nodup (C, args) hC) hnn)

/-- Witness for C6 at the point with get mapped to 2 and the category
GetTypeCmds. -/
theorem claim6_witness :
    (dictLookup "GetTypeCmds" (processMetricPoint [("get", (2 : ℚ))])).getD 0 ≤
      (dictLookup throughputKey (processMetricPoint [("get", (2 : ℚ))])).getD 0 :=
  claim6_throughput_dominates [("get", (2 : ℚ))] (by norm_num)
    (show ("GetTypeCmds", getTypeCmds) ∈ cat17 by decide)

/-- C4: classifier and reducer outputs carry exactly the 18 fixed category
keys, and classifying the empty raw point yields all 18 keys with value 0. -/
theorem claim4_eighteen_keys :
    (∀ m : RawPoint, (processMetricPoint m).map Prod.fst = catKeys) ∧
    (∀ (w : List CatVec) (res : CatVec), processNodeStats w = some res →
      res.map Prod.fst = catKeys) ∧
    processMetricPoint [] = catKeys.map (fun c => (c, 0)) := by
  refine ⟨fun m => processMetricPoint_keys m, fun w res h => processNodeStats_keys h, ?_⟩
  unfold processMetricPoint
  have hkeys : catKeys.map (fun c => (c, (0 : ℤ))) =
      (throughputKey, (0 : ℤ)) :: cat17.map (fun c => (c.1, (0 : ℤ))) := by decide
  rw [hkeys]
  congr 1
  · rw [show get_all_commands [] = 0 from rfl, pyround_zero]
  · refine List.map_congr_left ?_
    intro c _
    rw [get_command_by_args_nil, pyround_zero]

/-- Witness for C4: a successful reduction of a one-point window keeps the
18 keys. -/
theorem claim4_witness :
    nodeStatsInit.map Prod.fst = catKeys :=
  claim4_eighteen_keys.2.1 [nodeStatsInit] nodeStatsInit (by decide)

/-- C2: for a window of 18-key category vectors (non-negative values, per the
data model), the reducer's output for each category is the maximum of that
category across all timestamps, and the empty window reduces to the all-zero
18-key vector. -/
theorem claim2_reducer_max :
    (processNodeStats [] = some nodeStatsInit ∧ ∀ kv ∈ nodeStatsInit, kv.2 = 0) ∧
    (∀ w : List CatVec, (∀ p ∈ w, p.map Prod.fst = catKeys) →
      (∀ p ∈ w, ∀ kv ∈ p, 0 ≤ kv.2) →
      ∃ res, processNodeStats w = some res ∧
        ∀ c ∈ catKeys, ∃ M, dictLookup c res = some M ∧
          (∀ p ∈ w, (dictLookup c p).getD 0 ≤ M) ∧
          (w ≠ [] → ∃ p ∈ w, (dictLookup c p).getD 0 = M)) := by
  refine ⟨⟨rfl, by decide⟩, ?_⟩
  intro w hkeys hnn
  have hsub : ∀ p ∈ w, ∀ kv ∈ p, kv.1 ∈ catKeys := fun p hp kv hkv => by
    rw [← hkeys p hp]
    exact List.mem_map.mpr ⟨kv, hkv, rfl⟩
  obtain ⟨g, hg, hgc⟩ := processNodeStats_canon hsub
  refine ⟨canon g, hg, ?_⟩
  intro c hc
  have hgc₂ : g c = (w.map (fun p => (dictLookup c p).getD 0)).foldl max 0 := by
    rw [hgc c, valsFor_flatten_of_keys hc hkeys]
  refine ⟨g c, dictLookup_canon g hc, ?_, ?_⟩
  · intro p hp
    rw [hgc₂]
    exact mem_le_foldl_max (List.mem_map.mpr ⟨p, hp, rfl⟩) 0
  · intro hw
    rcases foldl_max_eq_or_mem (w.map (fun p => (dictLookup c p).getD 0)) 0 with h0 | hmem
    · obtain ⟨p₀, w₂, rfl⟩ : ∃ p₀ w₂, w = p₀ :: w₂ := by
        cases w with
        | nil => exact absurd rfl hw
        | cons a l => exact ⟨a, l, rfl⟩
      refine ⟨p₀, List.mem_cons_self _ _, ?_⟩
      have hle : (dictLookup c p₀).getD 0 ≤ g c := by
        rw [hgc₂]
        exact mem_le_foldl_max (List.mem_map.mpr ⟨p₀, List.mem_cons_self _ _, rfl⟩) 0
      have hge : 0 ≤ (dictLookup c p₀).getD 0 :=
        map_getD_nonneg hnn _ (List.mem_map.mpr ⟨p₀, List.mem_cons_self _ _, rfl⟩)
      have hz : g c = 0 := by rw [hgc₂, h0]
      omega
    · obtain ⟨p, hp, hpv⟩ := List.mem_map.mp hmem
      refine ⟨p, hp, ?_⟩
      rw [hgc₂]
      exact hpv

/-- Witness for C2 on the one-point window containing the zero vector. -/
theorem claim2_witness :
    ∃ res, processNodeStats [nodeStatsInit] = some res ∧
      ∀ c ∈ catKeys, ∃ M, dictLookup c res = some M ∧
        (∀ p ∈ [nodeStatsInit], (dictLookup c p).getD 0 ≤ M) ∧
        ([nodeStatsInit] ≠ [] → ∃ p ∈ [nodeStatsInit], (dictLookup c p).getD 0 = M) :=
  claim2_reducer_max.2 [nodeStatsInit] (by decide) (by decide)

/-- C5: the window reduction is order-independent — permuting the iteration
order of the window's category vectors does not change the reducer's
output. -/
theorem claim5_order_independent (w w₂ : List CatVec) (hperm : w.Perm w₂)
    (hkeys : ∀ p ∈ w, ∀ kv ∈ p, kv.1 ∈ catKeys) :
    processNodeStats w = processNodeStats w₂ := by
  have hkeys₂ : ∀ p ∈ w₂, ∀ kv ∈ p, kv.1 ∈ catKeys :=
    fun p hp => hkeys p (hperm.mem_iff.mpr hp)
  obtain ⟨g, hg, hgc⟩ := processNodeStats_canon hkeys
  obtain ⟨g₂, hg₂, hgc₂⟩ := processNodeStats_canon hkeys₂
  rw [hg, hg₂]
  have hcanon : canon g = canon g₂ := by
    unfold canon
    refine List.map_congr_left ?_
    intro c _
    have hpf : (valsFor c w.flatten).Perm (valsFor c w₂.flatten) := by
      unfold valsFor
      exact List.Perm.filterMap _ hperm.flatten
    rw [hgc c, hgc₂ c, foldl_max_perm hpf 0]
  rw [hcanon]

/-- Witness for C5 on a two-point window and its swap. -/
theorem claim5_witness :
    processNodeStats [[("GetTypeCmds", (1 : ℤ))], [("SetTypeCmds", (2 : ℤ))]] =
      processNodeStats [[("SetTypeCmds", (2 : ℤ))], [("GetTypeCmds", (1 : ℤ))]] :=
  claim5_order_independent _ _ (List.Perm.swap _ _ _) (by decide)

/-- C9: the reducer's output for each category is the maximum of 0 and all
values observed for that category across the window (so it is never
negative, and a window of all-negative values for a category reduces to 0,
not the true maximum). -/
theorem claim9_reducer_clamps_at_zero (w : List CatVec)
    (hkeys : ∀ p ∈ w, ∀ kv ∈ p, kv.1 ∈ catKeys) :
    ∃ res, processNodeStats w = some res ∧
      ∀ c ∈ catKeys, dictLookup c res = some ((valsFor c w.flatten).foldl max 0) ∧
        0 ≤ (valsFor c w.flatten).foldl max 0 := by
  obtain ⟨g, hg, hgc⟩ := processNodeStats_canon hkeys
  refine ⟨canon g, hg, fun c hc => ⟨?_, foldl_max_nonneg _ (le_refl 0)⟩⟩
  rw [dictLookup_canon g hc, hgc c]

/-- Witness for C9 on a window whose only GetTypeCmds observation is
negative. -/
theorem claim9_witness :
    ∃ res, processNodeStats [[("GetTypeCmds", (-5 : ℤ))]] = some res ∧
      ∀ c ∈ catKeys,
        dictLookup c res =
          some ((valsFor c ([[("GetTypeCmds", (-5 : ℤ))]] : List CatVec).flatten).foldl max 0) ∧
        0 ≤ (valsFor c ([[("GetTypeCmds", (-5 : ℤ))]] : List CatVec).flatten).foldl max 0 :=
  claim9_reducer_clamps_at_zero [[("GetTypeCmds", (-5 : ℤ))]] (by decide)

/-- C10: on windows whose vectors use only the 18 fixed keys the reducer
never fails, while a vector with any other key makes the unguarded
`nodeStats[key]` read raise a KeyError (modelled as `none`). -/
theorem claim10_keyerror :
    (∀ w : List CatVec, (∀ p ∈ w, ∀ kv ∈ p, kv.1 ∈ catKeys) →
      (processNodeStats w).isSome) ∧
    processNodeStats [[("NotACategory", 1)]] = none := by
  constructor
  · intro w h
    obtain ⟨g, hg, _⟩ := processNodeStats_canon h
    rw [hg]
    rfl
  · rfl

/-- Witness for C10 on a one-point window with a legal key. -/
theorem claim10_witness :
    (processNodeStats [[("GetTypeCmds", (4 : ℤ))]]).isSome :=
  claim10_keyerror.1 [[("GetTypeCmds", (4 : ℤ))]] (by decide)

/-- C7 counterexample: the xlsx exporter (src/msstats.py line 636) does not
pass an unrecognized role label through verbatim — "secondary" becomes
"Replica", where the spec's normalization would keep "secondary". -/
theorem claim7_counterexample :
    msstatsNodeRole "secondary" = "Replica" ∧
    msstatsNodeRole "secondary" ≠ "secondary" ∧
    specNodeRole "secondary" = "secondary" :=
  ⟨by decide, by decide, by decide⟩

/-- C7 amended: the CSV exporter (src/memorystore.py) normalizes roles
exactly as the spec words it ("primary" to "Master", "replica" to "Replica",
anything else verbatim), but the xlsx exporter (src/msstats.py line 636)
maps every role other than "primary" to "Replica". -/
theorem claim7_amended (role : String) :
    memorystoreNodeRole role = specNodeRole role ∧
    (role = "primary" → msstatsNodeRole role = "Master") ∧
    (role ≠ "primary" → msstatsNodeRole role = "Replica") := by
  refine ⟨rfl, fun h => ?_, fun h => ?_⟩
  · rw [msstatsNodeRole, if_pos h]
  · rw [msstatsNodeRole, if_neg h]

/-- Witness for C7 amended at the role label "secondary". -/
theorem claim7_witness : msstatsNodeRole "secondary" = "Replica" :=
  (claim7_amended "secondary").2.2 (by decide)

/-- C8 counterexample: in src/memorystore.py a node entry with zero observed
points gets the empty dict as its commandstats, not the 18-key all-zero
vector. -/
theorem claim8_counterexample :
    applyProcessedCategories [] = some [] ∧
    (([] : CatVec).map Prod.fst ≠ catKeys) :=
  ⟨rfl, by decide⟩

/-- C8 amended: a node with zero observed points gets the empty mapping as
its commandstats (so its category columns are absent, not zero-filled),
while every node with at least one observed point gets the full 18-key
vector. -/
theorem claim8_amended :
    applyProcessedCategories [] = some [] ∧
    (∀ pts : List RawPoint, pts ≠ [] →
      ∃ res, applyProcessedCategories pts = some res ∧ res.map Prod.fst = catKeys) := by
  refine ⟨rfl, ?_⟩
  intro pts hne
  have hkeys : ∀ p ∈ pts.map processMetricPoint, ∀ kv ∈ p, kv.1 ∈ catKeys := by
    intro p hp kv hkv
    obtain ⟨q, hq, rfl⟩ := List.mem_map.mp hp
    rw [← processMetricPoint_keys q]
    exact List.mem_map.mpr ⟨kv, hkv, rfl⟩
  obtain ⟨g, hg, _⟩ := processNodeStats_canon hkeys
  refine ⟨canon g, ?_, canon_keys g⟩
  have hF : pts.isEmpty = false := by
    cases pts with
    | nil => exact absurd rfl hne
    | cons a l => rfl
  rw [applyProcessedCategories, hF]
  simp only [Bool.false_eq_true, if_false]
  exact hg

/-- Witness for C8 amended on a window with one (empty) raw point. -/
theorem claim8_witness :
    ∃ res, applyProcessedCategories [[]] = some res ∧ res.map Prod.fst = catKeys :=
  claim8_amended.2 [[]] (List.cons_ne_nil _ _)

end MSStats
